import Mathlib

/-!
Shallow embedding of the OpenTTD BaNaNaS content server (bananas-server).

The definitions below are direct translations of the Python source:
  * `bananas_server/openttd/protocol/write.py` and `read.py` - the wire codec,
  * `bananas_server/openttd/send.py` and `receive.py` - packet encoders/decoders,
  * `bananas_server/index/local.py` - the catalog index build,
  * `bananas_server/application/bananas_server.py` - request handling,
  * `bananas_server/helpers/safe_filename.py` - the filename sanitizer.

Bytes are modelled as `List Nat` (each byte < 256 where it matters), Python
`bytes` slicing as `List.take`/`List.drop`, Python dicts as association lists
with last-insertion-wins lookup, and exceptions as `Except`/`Option`.
-/

namespace Bananas

abbrev Bytes := List Nat

/-- Python `int.from_bytes(bs, "little")`. -/
def intFromBytesLE : Bytes → Nat
  | [] => 0
  | b :: bs => b + 256 * intFromBytesLE bs

/-- Python `struct.unpack(">I", bs)[0]` for a 4-byte string, and in general the
big-endian integer of a byte sequence. -/
def intFromBytesBE (bs : Bytes) : Nat :=
  intFromBytesLE bs.reverse

/-- Python `v.to_bytes(n, "little")` (the in-range behaviour; Python raises
for `v ≥ 256^n`, callers below always pass in-range values). -/
def intToBytesLE : Nat → Nat → Bytes
  | 0, _ => []
  | n + 1, v => v % 256 :: intToBytesLE n (v / 256)

/-- Python `v.to_bytes(n, "big")`. -/
def intToBytesBE (n v : Nat) : Bytes :=
  (intToBytesLE n v).reverse

/-- The content types of `protocol/enums.py`, without the `CONTENT_TYPE_END`
sentinel (which is rejected on the wire and skipped by the index build). -/
inductive ContentType
  | BASE_GRAPHICS
  | NEWGRF
  | AI
  | AI_LIBRARY
  | SCENARIO
  | HEIGHTMAP
  | BASE_SOUNDS
  | BASE_MUSIC
  | GAME
  | GAME_LIBRARY
deriving DecidableEq, Repr

/-- The u32 written for `unique_id` by `send_PACKET_CONTENT_SERVER_INFO`
(`openttd/send.py` lines 44-55): `struct.unpack(">I", unique_id)[0]` for
newgrf, and for scenario/heightmap, `struct.unpack("<I", unique_id)[0]`
otherwise. -/
def uniqueIdWireValue (t : ContentType) (unique_id : Bytes) : Nat :=
  if t = ContentType.NEWGRF then
    intFromBytesBE unique_id
  else if t = ContentType.SCENARIO ∨ t = ContentType.HEIGHTMAP then
    intFromBytesBE unique_id
  else
    intFromBytesLE unique_id

/-- The bytes recovered from the received u32 by `_receive_client_info`
(`openttd/receive.py` lines 105-117): `unique_id.to_bytes(4, "big")` for
newgrf and scenario/heightmap, `unique_id.to_bytes(4, "little")` otherwise. -/
def uniqueIdFromWireValue (t : ContentType) (v : Nat) : Bytes :=
  if t = ContentType.NEWGRF then
    intToBytesBE 4 v
  else if t = ContentType.SCENARIO ∨ t = ContentType.HEIGHTMAP then
    intToBytesBE 4 v
  else
    intToBytesLE 4 v

/-- Whether a content type uses the byte-swapped (big-endian) unique-id wire
representation; abbreviates the shared `if`/`elif` condition of the encoder
and decoder. -/
def isByteSwappedType (t : ContentType) : Prop :=
  t = ContentType.NEWGRF ∨ t = ContentType.SCENARIO ∨ t = ContentType.HEIGHTMAP

instance (t : ContentType) : Decidable (isByteSwappedType t) := by
  unfold isByteSwappedType; infer_instance

/-! ### The filename sanitizer (`helpers/safe_filename.py`, `_safe_name`) -/

/-- The character test of `_safe_name`: `[A-Za-z0-9.]` by code-point ranges. -/
def isSafeChar (c : Char) : Bool :=
  ('a' ≤ c && c ≤ 'z') || ('A' ≤ c && c ≤ 'Z') || ('0' ≤ c && c ≤ '9') || c == '.'

/-- The effect of one unsafe character on the accumulator (`new_name`
reversed): `elif new_name and new_name[-1] != "_": new_name += "_"` — a
`_` is appended only when the name is nonempty and does not already end in
`_`. -/
def safePush (racc : List Char) : List Char :=
  match racc with
  | [] => racc
  | l :: _ => if l = '_' then racc else '_' :: racc

/-- The accumulation loop of `_safe_name`; `racc` is `new_name` reversed, so
`new_name[-1]` is `racc.head`. -/
def safeGo : List Char → List Char → List Char
  | racc, [] => racc
  | racc, c :: cs =>
    if isSafeChar c then
      safeGo (c :: racc) cs
    else
      safeGo (safePush racc) cs

/-- The strip set of `new_name.strip("._")`. -/
def isStripChar (c : Char) : Bool :=
  c == '.' || c == '_'

/-- Python `s.strip("._")`: drop the characters of the strip set from both
ends. -/
def pyStripEnds (s : List Char) : List Char :=
  ((s.dropWhile isStripChar).reverse.dropWhile isStripChar).reverse

/-- `_safe_name` from `helpers/safe_filename.py`. -/
def safeName (s : List Char) : List Char :=
  pyStripEnds (safeGo [] s).reverse

/-! ### The catalog index build (`index/local.py`)

An entry as parsed from one version YAML record, before a content id is
assigned (`Index._read_content_entry_version`).  Only the fields the index
build inspects are kept.  Python object identity is modelled by tagging each
entry with its position in the traversal order (`List.enum`). -/

structure RawEntry where
  content_type : ContentType
  unique_id : Bytes
  md5sum : Bytes
  upload_date : Nat
  active : Bool
deriving DecidableEq, Repr

/-- `content_entry.pre_content_id = int.from_bytes(md5sum[-3:], "little")`
(`index/local.py` line 190).  `md5sum[-3:]` is the last three bytes. -/
def preContentId (md5sum : Bytes) : Nat :=
  intFromBytesLE (md5sum.drop (md5sum.length - 3))

/-- The sort key of `sorted(content_entries, key=lambda x: x.upload_date)`,
on position-tagged entries. -/
def uploadLe (a b : Nat × RawEntry) : Prop :=
  a.2.upload_date ≤ b.2.upload_date

instance : DecidableRel uploadLe := fun a b => Nat.decLe a.2.upload_date b.2.upload_date

instance : IsTotal (Nat × RawEntry) uploadLe :=
  ⟨fun a b => Nat.le_total a.2.upload_date b.2.upload_date⟩

instance : IsTrans (Nat × RawEntry) uploadLe :=
  ⟨fun _ _ _ h h' => Nat.le_trans h h'⟩

/-- The list `content_ids[base]` of `Index.reload`: all entries (active and
archived, in traversal order) whose `pre_content_id` equals `base`. -/
def groupIx (es : List RawEntry) (base : Nat) : List (Nat × RawEntry) :=
  es.enum.filter (fun p => preContentId p.2.md5sum == base)

/-- `sorted(content_entries, key=lambda x: x.upload_date)` for one group;
Python's sort is stable, as is insertion sort with a total preorder. -/
def sortedGroup (es : List RawEntry) (base : Nat) : List (Nat × RawEntry) :=
  (groupIx es base).insertionSort uploadLe

/-- The content id assigned to the entry at position `p.1`:
`content_entry.content_id = (i << 24) + content_id` where `i` is the entry's
index in its sorted group (`Index.reload` lines 289-290). -/
def contentIdOfTagged (es : List RawEntry) (p : Nat × RawEntry) : Nat :=
  (((sortedGroup es (preContentId p.2.md5sum)).findIdx (fun q => q.1 == p.1)) <<< 24)
    + preContentId p.2.md5sum

/-- A `ContentEntry` after `Index.reload` has mutated its `content_id`. -/
structure IdEntry where
  content_type : ContentType
  unique_id : Bytes
  md5sum : Bytes
  upload_date : Nat
  active : Bool
  content_id : Nat
deriving DecidableEq, Repr

def RawEntry.withId (e : RawEntry) (cid : Nat) : IdEntry :=
  ⟨e.content_type, e.unique_id, e.md5sum, e.upload_date, e.active, cid⟩

def IdEntry.raw (e : IdEntry) : RawEntry :=
  ⟨e.content_type, e.unique_id, e.md5sum, e.upload_date, e.active⟩

/-- All entries with their assigned content ids, in traversal order.  The
Python dicts hold references to the mutated `ContentEntry` objects, so every
view observes the assigned ids. -/
def assignAll (es : List RawEntry) : List IdEntry :=
  es.enum.map (fun p => p.2.withId (contentIdOfTagged es p))

/-- The value returned by a successful `Index.reload`, from which the four
dict views are derived. -/
structure Snapshot where
  entries : List IdEntry
deriving DecidableEq, Repr

/-- `by_content_id[cid]`.  Assigned content ids are pairwise distinct, so a
first-match lookup realizes the dict. -/
def Snapshot.byContentId (s : Snapshot) (cid : Nat) : Option IdEntry :=
  s.entries.find? (fun e => e.content_id == cid)

/-- `by_unique_id_and_md5sum[content_type][unique_id][md5sum]`; for a dict,
the last insertion wins, hence the lookup over the reversed insertion
order. -/
def Snapshot.byUniqueIdAndMd5sum (s : Snapshot) (t : ContentType) (uid md5 : Bytes) :
    Option IdEntry :=
  s.entries.reverse.find?
    (fun e => e.content_type == t && e.unique_id == uid && e.md5sum == md5)

/-- `by_content_type[t]`: the active entries of type `t` in traversal
order. -/
def Snapshot.byContentType (s : Snapshot) (t : ContentType) : List IdEntry :=
  s.entries.filter (fun e => e.active && e.content_type == t)

/-- `by_unique_id[t][uid]`: the last active entry inserted for the key. -/
def Snapshot.byUniqueId (s : Snapshot) (t : ContentType) (uid : Bytes) : Option IdEntry :=
  (s.entries.filter (fun e => e.active)).reverse.find?
    (fun e => e.content_type == t && e.unique_id == uid)

/-- `Index.reload`: raises when any base group holds more than 255 entries
(lines 282-287), otherwise returns the snapshot with all ids assigned. -/
def indexReload (es : List RawEntry) : Except String Snapshot :=
  if es.any (fun e => 255 < (groupIx es (preContentId e.md5sum)).length) then
    .error "We have more than 255 hash collisions; content-ids would be identical for more than one package. Aborting."
  else
    .ok ⟨assignAll es⟩

/-- The four catalog views bound on the live `Application`
(`application/bananas_server.py`, `_by_content_id` etc.). -/
structure AppState where
  by_content_id : Nat → Option IdEntry
  by_content_type : ContentType → List IdEntry
  by_unique_id : ContentType → Bytes → Option IdEntry
  by_unique_id_and_md5sum : ContentType → Bytes → Bytes → Option IdEntry

/-- Binding the four views to a freshly built snapshot. -/
def snapshotState (s : Snapshot) : AppState :=
  ⟨s.byContentId, s.byContentType, s.byUniqueId, s.byUniqueIdAndMd5sum⟩

/-- `Application.reload`: the tuple assignment to the four views happens only
after `await task` returns; when the worker raises, the assignment is never
executed and the previous state stays bound. -/
def applicationReload (st : AppState) (result : Except String Snapshot) : AppState :=
  match result with
  | .ok s => snapshotState s
  | .error _ => st

/-! ### The listing filter of `receive_PACKET_CONTENT_CLIENT_INFO_LIST`
(`application/bananas_server.py` lines 181-207) -/

/-- Version parts as Python integers (`[int(p) for p in s.split(".")]`). -/
abbrev PyVer := List Int

/-- Python list comparison `a < b`: lexicographic, a strict prefix is
smaller. -/
def pyListLt : PyVer → PyVer → Bool
  | [], [] => false
  | [], _ :: _ => true
  | _ :: _, [] => false
  | a :: as, b :: bs => if a < b then true else if b < a then false else pyListLt as bs

/-- One value of an entry's compatibility dict:
`compatibility[name] = [min_version, max_version]` with `None` for an absent
bound (`Index._read_content_entry_version` lines 108-121). -/
structure CompatRange where
  min_version : Option PyVer
  max_version : Option PyVer
deriving DecidableEq, Repr

/-- Python truthiness of `None`-or-list: `None` and `[]` are falsy. -/
def pyTruthyVer : Option PyVer → Bool
  | none => false
  | some l => !l.isEmpty

/-- The per-branch body of the listing filter:
`if min_version and version < min_version: continue` and
`if max_version and version >= max_version: continue`; reaching `break`
means the branch accepts the client. -/
def branchAccepts (version : PyVer) (r : CompatRange) : Bool :=
  if pyTruthyVer r.min_version && pyListLt version (r.min_version.getD []) then
    false
  else if pyTruthyVer r.max_version && !pyListLt version (r.max_version.getD []) then
    false
  else
    true

/-- The `for ... else` loop deciding whether an entry is sent: entries with
an empty compatibility dict are always included; otherwise some branch of the
client's version map must be a key of the compatibility dict and accept the
client's version. -/
def entryIncluded (versions : List (String × PyVer))
    (compatibility : List (String × CompatRange)) : Bool :=
  if compatibility.isEmpty then
    true
  else
    versions.any (fun bv =>
      match compatibility.lookup bv.1 with
      | none => false
      | some r => branchAccepts bv.2 r)

/-! ### Client version decoding (`receive_PACKET_CONTENT_CLIENT_INFO_LIST`
lines 117-139) -/

/-- Decoding of a non-sentinel `openttd_version` into the version list
recorded under the `vanilla` branch. -/
def decodeClientVersion (v : Nat) : List Nat :=
  let version_major := (v >>> 24) &&& 0xFF
  let version_minor := (v >>> 20) &&& 0xF
  if version_major > 16 + 11 then
    [version_major - 16, version_minor]
  else
    [(v >>> 28) &&& 0xF, (v >>> 24) &&& 0xF, (v >>> 20) &&& 0xF]

/-- The full version map: the sentinel `0xFFFFFFFF` means the (already
validated) branch-versions map is used, otherwise the decoded version is
recorded under `vanilla`. -/
def clientVersionMap (openttd_version : Nat)
    (branch_versions : List (String × List Nat)) : List (String × List Nat) :=
  if openttd_version ≠ 0xFFFFFFFF then
    [("vanilla", decodeClientVersion openttd_version)]
  else
    branch_versions

/-! ### The wire codec (`openttd/protocol/write.py`) and
`send_PACKET_CONTENT_SERVER_CONTENT` (`openttd/send.py` lines 73-95) -/

def SEND_MTU : Nat := 1460

/-- `write_init(type)`: a two-byte length placeholder and the type byte. -/
def writeInit (t : Nat) : Bytes :=
  [0, 0, t % 256]

def writeUint8 (data : Bytes) (v : Nat) : Bytes :=
  data ++ [v % 256]

/-- The four bytes of `struct.pack("<I", v)`. -/
def uint32Bytes (v : Nat) : Bytes :=
  [v % 256, v / 256 % 256, v / 65536 % 256, v / 16777216 % 256]

def writeUint32 (data : Bytes) (v : Nat) : Bytes :=
  data ++ uint32Bytes v

/-- `write_string`: the encoded string followed by a NUL terminator. -/
def writeString (data : Bytes) (s : Bytes) : Bytes :=
  data ++ s ++ [0]

/-- The little-endian 16-bit length prefix written by `write_presend`. -/
def lengthPrefix (n : Nat) : Bytes :=
  [n % 256, n / 256 % 256]

/-- `write_presend`: reject frames above the MTU, else rewrite the two-byte
prefix with the actual length. -/
def writePresend (data : Bytes) : Except String Bytes :=
  if SEND_MTU < data.length then
    .error "PacketTooBig"
  else
    .ok (lengthPrefix data.length ++ data.drop 2)

/-- The packet type byte `PACKET_CONTENT_SERVER_CONTENT`. -/
def SERVER_CONTENT_TYPE : Nat := 6

/-- The `while not stream.eof(): stream.read(SEND_MTU - 3)` loop: the data
read by the successive reads.  The stream yields exactly the remaining file
bytes and `eof` holds exactly when they are exhausted (`storage/local.py`
`Stream`, with `filesize` equal to the actual file size). -/
def chunkStream (bs : Bytes) : List Bytes :=
  if bs.isEmpty then
    []
  else
    bs.take (SEND_MTU - 3) :: chunkStream (bs.drop (SEND_MTU - 3))
termination_by bs.length
decreasing_by
  simp only [List.length_drop]
  rename_i h
  have hne : bs ≠ [] := by simpa [List.isEmpty_iff] using h
  have hpos : 0 < bs.length := List.length_pos.mpr hne
  simp only [SEND_MTU]
  omega

/-- `send_PACKET_CONTENT_SERVER_CONTENT`: the header frame, one frame per
stream read, and the empty terminator frame, in the order they are passed to
`send_packet`. -/
def sendServerContent (content_type content_id filesize : Nat)
    (filename : Bytes) (file : Bytes) : Except String (List Bytes) :=
  match writePresend
      (writeString (writeUint32 (writeUint32 (writeUint8 (writeInit SERVER_CONTENT_TYPE)
        content_type) content_id) filesize) filename) with
  | .error e => .error e
  | .ok header =>
    match (chunkStream file).mapM
        (fun chunk => writePresend (writeInit SERVER_CONTENT_TYPE ++ chunk)) with
    | .error e => .error e
    | .ok dataFrames =>
      match writePresend (writeInit SERVER_CONTENT_TYPE) with
      | .error e => .error e
      | .ok terminator => .ok (header :: dataFrames ++ [terminator])

/-! ### Frame reassembly (`openttd/receive.py`, `receive_data`) -/

/-- One run of the `while len(data) > 2` loop of `receive_data`, with an
explicit fuel bound on the number of iterations; `none` means the loop has
not finished within `fuel` iterations.  Each iteration reads the two-byte
little-endian length prefix, breaks when the buffer holds less than `length`
bytes, and otherwise enqueues `data[0:length]` and continues with
`data[length:]`. -/
def receiveDataFuel : Nat → List Bytes → Bytes → Option (List Bytes × Bytes)
  | 0, _, _ => none
  | fuel + 1, queue, data =>
    match data with
    | b0 :: b1 :: c :: rest =>
      let buf := b0 :: b1 :: c :: rest
      let length := b0 + 256 * b1
      if buf.length < length then
        some (queue, buf)
      else
        receiveDataFuel fuel (queue ++ [buf.take length]) (buf.drop length)
    | short => some (queue, short)

/-! ### Tags synthesis (`Application._send_content_entry` lines 80-106) and
the classification plumbing of `Index._read_content_entry_version` -/

/-- A value of the YAML tag-classification map: a string or a boolean. -/
inductive TagVal
  | str (s : String)
  | flag (b : Bool)
deriving DecidableEq, Repr

/-- The version YAML record fields involved in classification: the record's
`tagclassifications` map, and its `classification` key, which the YAML
schema does not define and which is therefore absent (`none`) in records. -/
structure VersionYaml where
  tagclassifications : List (String × TagVal)
  classification : Option (List (String × TagVal))
deriving DecidableEq, Repr

/-- `Index._read_content_entry_version` line 180: the entry is constructed
with `classification=data.get("classification", {})`. -/
def loadedClassification (data : VersionYaml) : List (String × TagVal) :=
  data.classification.getD []

/-- The classification-derived tags of `_send_content_entry`: string values
verbatim, keys of true booleans; false booleans and nothing else.  The
Python `set` only affects duplication and ordering, not membership. -/
def classificationTags : List (String × TagVal) → List String
  | [] => []
  | (_, TagVal.str v) :: rest => v :: classificationTags rest
  | (k, TagVal.flag true) :: rest => k :: classificationTags rest
  | (_, TagVal.flag false) :: rest => classificationTags rest

/-- The classification-derived part of the tag list sent in the entry's
SERVER_INFO reply, as the code computes it from a loaded version record. -/
def sentClassificationTags (data : VersionYaml) : List String :=
  classificationTags (loadedClassification data)

/-! ### Concrete inputs used to exercise the theorems -/

/-- A well-formed 16-byte md5sum whose last three bytes are `01 00 00`. -/
def sampleMd5 : Bytes := List.replicate 13 0 ++ [1, 0, 0]

def sampleRaw : RawEntry :=
  ⟨ContentType.NEWGRF, [1, 2, 3, 4], sampleMd5, 100, true⟩

/-- A one-entry catalog. -/
def singleIndex : List RawEntry := [sampleRaw]

/-- 256 entries sharing one md5sum tail: one base group of size 256. -/
def collisionIndex : List RawEntry := List.replicate 256 sampleRaw

/-- The application state before a reload. -/
def emptyAppState : AppState := snapshotState ⟨[]⟩

/-- Two distinct version records of one package resolving to the same full
md5sum (both YAML files name the same `md5sum-partial`). -/
def dupRawA : RawEntry := ⟨ContentType.NEWGRF, [1, 2, 3, 4], List.replicate 16 0, 1, true⟩

def dupRawB : RawEntry := ⟨ContentType.NEWGRF, [1, 2, 3, 4], List.replicate 16 0, 2, true⟩

def dupIndex : List RawEntry := [dupRawA, dupRawB]

/-- A client version map and a compatibility dict for the listing filter. -/
def c2versions : List (String × PyVer) := [("vanilla", [0, 10, 11])]

def c2compat : List (String × CompatRange) := [("vanilla", ⟨some [0, 9, 0], none⟩)]

/-- A version YAML record carrying one tag classification and, as always, no
`classification` key. -/
def c8data : VersionYaml := ⟨[("foo", TagVal.str "bar")], none⟩

/-! ## Byte-conversion lemmas -/

theorem intFromBytesLE_lt (bs : Bytes) (h : ∀ b ∈ bs, b < 256) :
    intFromBytesLE bs < 256 ^ bs.length := by
  induction bs with
  | nil => simp [intFromBytesLE]
  | cons b t ih =>
    have hb : b < 256 := h b (List.mem_cons_self b t)
    have ht := ih (fun x hx => h x (List.mem_cons_of_mem b hx))
    simp only [intFromBytesLE, List.length_cons, pow_succ]
    calc b + 256 * intFromBytesLE t < 256 + 256 * intFromBytesLE t := by omega
    _ = 256 * (intFromBytesLE t + 1) := by ring
    _ ≤ 256 * 256 ^ t.length := by
        exact Nat.mul_le_mul_left 256 (Nat.succ_le_of_lt ht)
    _ = 256 ^ t.length * 256 := by ring

theorem intFromBytesLE_intToBytesLE (n v : Nat) (h : v < 256 ^ n) :
    intFromBytesLE (intToBytesLE n v) = v := by
  induction n generalizing v with
  | zero =>
    have : v = 0 := by simpa using h
    simp [this, intToBytesLE, intFromBytesLE]
  | succ n ih =>
    have hdiv : v / 256 < 256 ^ n := by
      rw [Nat.div_lt_iff_lt_mul (by norm_num : 0 < 256)]
      calc v < 256 ^ (n + 1) := h
      _ = 256 ^ n * 256 := by ring
    simp only [intToBytesLE, intFromBytesLE, ih (v / 256) hdiv]
    omega

theorem intToBytesLE_intFromBytesLE (bs : Bytes) (h : ∀ b ∈ bs, b < 256) :
    intToBytesLE bs.length (intFromBytesLE bs) = bs := by
  induction bs with
  | nil => simp [intToBytesLE]
  | cons b t ih =>
    have hb : b < 256 := h b (List.mem_cons_self b t)
    have ht := ih (fun x hx => h x (List.mem_cons_of_mem b hx))
    simp only [List.length_cons, intToBytesLE, intFromBytesLE]
    have h1 : (b + 256 * intFromBytesLE t) % 256 = b := by omega
    have h2 : (b + 256 * intFromBytesLE t) / 256 = intFromBytesLE t := by omega
    rw [h1, h2, ht]

theorem bigEndianRoundTrip (u : Bytes) (hlen : u.length = 4) (hb : ∀ b ∈ u, b < 256) :
    intToBytesBE 4 (intFromBytesLE (intToBytesLE 4 (intFromBytesBE u))) = u := by
  have hrev : u.reverse.length = 4 := by simpa using hlen
  have hbrev : ∀ b ∈ u.reverse, b < 256 := fun b hx => hb b (List.mem_reverse.mp hx)
  have hlt : intFromBytesLE u.reverse < 256 ^ 4 := by
    simpa [hrev] using intFromBytesLE_lt u.reverse hbrev
  rw [intFromBytesBE, intFromBytesLE_intToBytesLE 4 _ hlt, intToBytesBE]
  rw [← hrev, intToBytesLE_intFromBytesLE u.reverse hbrev, List.reverse_reverse]

theorem littleEndianRoundTrip (u : Bytes) (hlen : u.length = 4) (hb : ∀ b ∈ u, b < 256) :
    intToBytesLE 4 (intFromBytesLE (intToBytesLE 4 (intFromBytesLE u))) = u := by
  have hlt : intFromBytesLE u < 256 ^ 4 := by
    simpa [hlen] using intFromBytesLE_lt u hb
  rw [intFromBytesLE_intToBytesLE 4 _ hlt, ← hlen, intToBytesLE_intFromBytesLE u hb]

/-! ## Claims -/

/-- C4: For every ContentType `t` and 4-byte `unique_id` `u`, decoding the
u32 that the SERVER_INFO encoder emits for `u` under `t` (transported over
the wire as a little-endian u32 by `write_uint32`/`read_uint32`) yields `u`
again; encoder and decoder both use big-endian for newgrf, scenario and
heightmap, and little-endian for every other type. -/
theorem C4_unique_id_roundtrip (t : ContentType) (u : Bytes)
    (hlen : u.length = 4) (hb : ∀ b ∈ u, b < 256) :
    uniqueIdFromWireValue t (intFromBytesLE (intToBytesLE 4 (uniqueIdWireValue t u))) = u
    ∧ (isByteSwappedType t →
        uniqueIdWireValue t u = intFromBytesBE u
        ∧ ∀ v, uniqueIdFromWireValue t v = intToBytesBE 4 v)
    ∧ (¬isByteSwappedType t →
        uniqueIdWireValue t u = intFromBytesLE u
        ∧ ∀ v, uniqueIdFromWireValue t v = intToBytesLE 4 v) := by
  cases t <;>
    first
      | exact ⟨bigEndianRoundTrip u hlen hb, fun _ => ⟨rfl, fun _ => rfl⟩,
          fun hc => absurd (by decide) hc⟩
      | exact ⟨littleEndianRoundTrip u hlen hb, fun hc => absurd hc (by decide),
          fun _ => ⟨rfl, fun _ => rfl⟩⟩

/-- C7 counterexample: the claim's concrete example is wrong.  In
`0x0A0B0000` the legacy nibble layout has major `0`, minor `10 (0x0A)` and
patch `0` (the nibble at bits 20-23 is `0`, not `11`), so the code decodes
it to `[0, 10, 0]`, not `[0, 10, 11]`. -/
theorem C7_counterexample :
    decodeClientVersion 0x0A0B0000 = [0, 10, 0]
    ∧ decodeClientVersion 0x0A0B0000 ≠ [0, 10, 11] := by
  exact ⟨by decide, by decide⟩

/-- C7 (amended): For a CLIENT_INFO_LIST with `openttd_version` not the
sentinel `0xFFFFFFFF`, when the top byte exceeds 27 the version decodes to
the two-part `[top_byte - 16, next_nibble]`, otherwise to the legacy
three-part nibble layout, recorded under branch `vanilla`; in particular
`0x0A0B0000` decodes to `[0, 10, 0]`. -/
theorem C7_version_decode (v : Nat) (hne : v ≠ 0xFFFFFFFF)
    (branch_versions : List (String × List Nat)) :
    clientVersionMap v branch_versions =
      [("vanilla",
        if 27 < v / 2 ^ 24 % 2 ^ 8 then
          [v / 2 ^ 24 % 2 ^ 8 - 16, v / 2 ^ 20 % 2 ^ 4]
        else
          [v / 2 ^ 28 % 2 ^ 4, v / 2 ^ 24 % 2 ^ 4, v / 2 ^ 20 % 2 ^ 4])]
    ∧ decodeClientVersion 0x0A0B0000 = [0, 10, 0] := by
  refine ⟨?_, by decide⟩
  rw [clientVersionMap, if_pos hne]
  have hmod8 : ∀ x : Nat, x &&& 0xFF = x % 2 ^ 8 := by
    intro x
    have := Nat.and_pow_two_sub_one_eq_mod x 8
    norm_num at this ⊢
    exact this
  have hmod4 : ∀ x : Nat, x &&& 0xF = x % 2 ^ 4 := by
    intro x
    have := Nat.and_pow_two_sub_one_eq_mod x 4
    norm_num at this ⊢
    exact this
  simp only [decodeClientVersion, Nat.shiftRight_eq_div_pow, hmod8, hmod4]

/-- Witness for C7 at the concrete legacy version `0x0A0B0000`. -/
theorem C7_witness :
    (0x0A0B0000 : Nat) ≠ 0xFFFFFFFF ∧
      clientVersionMap 0x0A0B0000 [] = [("vanilla", [0, 10, 0])] := by
  refine ⟨by decide, ?_⟩
  have h := (C7_version_decode 0x0A0B0000 (by decide) []).1
  norm_num at h
  exact h

/-- C8: the claim says the SERVER_INFO tag list contains the value of every
string entry (and the key of every true boolean entry) of the version YAML
record's `tagclassifications` map.  The code validates `tagclassifications`
but constructs the entry from the absent `classification` key, so the sent
classification tags are empty: on a record whose `tagclassifications` is
`{"foo": "bar"}` the code sends no classification tag although the claim
requires `"bar"`. -/
theorem C8_classification_dropped :
    c8data.tagclassifications = [("foo", TagVal.str "bar")]
    ∧ loadedClassification c8data = []
    ∧ sentClassificationTags c8data = []
    ∧ classificationTags c8data.tagclassifications = ["bar"] := by
  refine ⟨rfl, rfl, rfl, rfl⟩

/-- C10: the claim says `receive_data` terminates on every finite buffer.
It does not: on the three-byte buffer `00 00 00` the length prefix is zero,
`data[0:0]` (the empty frame) is enqueued and `data[0:]` leaves the buffer
unchanged, so no iteration bound suffices for the loop to finish. -/
theorem C10_receive_data_diverges (fuel : Nat) (queue : List Bytes) :
    receiveDataFuel fuel queue [0, 0, 0] = none := by
  induction fuel generalizing queue with
  | zero => rfl
  | succ n ih => simpa [receiveDataFuel] using ih (queue ++ [[]])

theorem lookup_mem {α β : Type} [BEq α] [LawfulBEq α] {l : List (α × β)} {k : α} {b : β}
    (h : l.lookup k = some b) : (k, b) ∈ l := by
  obtain ⟨l₁, l₂, rfl, -⟩ := List.lookup_eq_some_iff.mp h
  simp

theorem branchAccepts_iff (v : PyVer) (mn mx : Option PyVer)
    (hmin : mn ≠ some []) (hmax : mx ≠ some []) :
    branchAccepts v ⟨mn, mx⟩ = true ↔
      ((mn = none ∨ ∃ m, mn = some m ∧ pyListLt v m = false)
        ∧ (mx = none ∨ ∃ m, mx = some m ∧ pyListLt v m = true)) := by
  have hne : ∀ (o : Option PyVer), o ≠ some [] → ∀ m, o = some m → m.isEmpty = false := by
    rintro o ho m rfl
    simp only [List.isEmpty_eq_false]
    intro hnil
    exact ho (by rw [hnil])
  cases mn with
  | none =>
    cases mx with
    | none => simp [branchAccepts, pyTruthyVer]
    | some m =>
      have hm := hne _ hmax m rfl
      cases hlt : pyListLt v m <;>
        simp [branchAccepts, pyTruthyVer, hm, hlt]
  | some m =>
    have hm := hne _ hmin m rfl
    cases mx with
    | none =>
      cases hlt : pyListLt v m <;>
        simp [branchAccepts, pyTruthyVer, hm, hlt]
    | some m' =>
      have hm' := hne _ hmax m' rfl
      cases hlt : pyListLt v m <;> cases hlt' : pyListLt v m' <;>
        simp [branchAccepts, pyTruthyVer, hm, hm', hlt, hlt']

/-- C2: an entry is included in the CLIENT_INFO_LIST reply exactly when its
compatibility dict is empty, or some branch of the client's version map is a
key of the dict whose range accepts the client's version: the minimum is
absent or not above the version, and the maximum is absent or strictly above
it.  (The loader never produces a `some []` bound, which the hypothesis
records.) -/
theorem C2_listing_filter (versions : List (String × PyVer))
    (compatibility : List (String × CompatRange))
    (hwf : ∀ p ∈ compatibility, p.2.min_version ≠ some [] ∧ p.2.max_version ≠ some []) :
    entryIncluded versions compatibility = true ↔
      compatibility = [] ∨
        ∃ b v r, (b, v) ∈ versions ∧ compatibility.lookup b = some r ∧
          (r.min_version = none ∨ ∃ m, r.min_version = some m ∧ pyListLt v m = false) ∧
          (r.max_version = none ∨ ∃ m, r.max_version = some m ∧ pyListLt v m = true) := by
  by_cases hc : compatibility = []
  · subst hc
    simp [entryIncluded]
  · rw [entryIncluded, if_neg (by simpa [List.isEmpty_eq_false] using hc),
      List.any_eq_true]
    constructor
    · rintro ⟨⟨b, v⟩, hmem, hb⟩
      cases hlook : compatibility.lookup b with
      | none => rw [hlook] at hb; exact absurd hb (by simp)
      | some r =>
        rw [hlook] at hb
        have hr := hwf _ (lookup_mem hlook)
        have hacc := (branchAccepts_iff v r.min_version r.max_version hr.1 hr.2).mp hb
        exact Or.inr ⟨b, v, r, hmem, hlook, hacc.1, hacc.2⟩
    · rintro (hc' | ⟨b, v, r, hmem, hlook, h1, h2⟩)
      · exact absurd hc' hc
      · refine ⟨(b, v), hmem, ?_⟩
        rw [hlook]
        have hr := hwf _ (lookup_mem hlook)
        exact (branchAccepts_iff v r.min_version r.max_version hr.1 hr.2).mpr ⟨h1, h2⟩

/-- Witness for C2 on a one-branch version map against a one-branch
compatibility dict. -/
theorem C2_witness :
    (∀ p ∈ c2compat, p.2.min_version ≠ some [] ∧ p.2.max_version ≠ some []) ∧
      (entryIncluded c2versions c2compat = true ↔
        c2compat = [] ∨
          ∃ b v r, (b, v) ∈ c2versions ∧ c2compat.lookup b = some r ∧
            (r.min_version = none ∨ ∃ m, r.min_version = some m ∧ pyListLt v m = false) ∧
            (r.max_version = none ∨ ∃ m, r.max_version = some m ∧ pyListLt v m = true)) :=
  ⟨by decide, C2_listing_filter c2versions c2compat (by decide)⟩

theorem chunkStream_eq_of_le (n : Nat) :
    ∀ bs : Bytes, bs.length ≤ n →
      chunkStream bs =
        (List.range ((bs.length + 1456) / 1457)).map
          (fun i => (bs.drop (1457 * i)).take 1457) := by
  induction n with
  | zero =>
    intro bs hbs
    have hnil : bs = [] := List.length_eq_zero.mp (Nat.le_zero.mp hbs)
    subst hnil
    rw [chunkStream]
    norm_num
  | succ n ih =>
    intro bs hbs
    cases bs with
    | nil =>
      rw [chunkStream]
      norm_num
    | cons b t =>
      rw [chunkStream]
      have hmtu : SEND_MTU - 3 = 1457 := by norm_num [SEND_MTU]
      simp only [List.isEmpty_cons, Bool.false_eq_true, if_false, hmtu]
      have hdl : ((b :: t).drop 1457).length = t.length + 1 - 1457 := by
        simp [List.length_drop]
      rw [ih ((b :: t).drop 1457) (by simp only [List.length_drop]; simp at hbs ⊢; omega)]
      have hk : ((b :: t).length + 1456) / 1457
          = ((t.length + 1 - 1457 + 1456) / 1457) + 1 := by
        simp only [List.length_cons]
        omega
      rw [hdl, hk, List.range_succ_eq_map]
      rw [List.map_cons, List.map_map]
      congr 1
      apply List.map_congr_left
      intro i _
      show (((b :: t).drop 1457).drop (1457 * i)).take 1457
          = ((b :: t).drop (1457 * (i + 1))).take 1457
      rw [List.drop_drop]
      congr 2
      ring

theorem chunkStream_spec (bs : Bytes) :
    chunkStream bs =
      (List.range ((bs.length + 1456) / 1457)).map
        (fun i => (bs.drop (1457 * i)).take 1457) :=
  chunkStream_eq_of_le bs.length bs le_rfl

theorem chunkStream_length_le (bs : Bytes) : ∀ c ∈ chunkStream bs, c.length ≤ 1457 := by
  rw [chunkStream_spec]
  intro c hc
  obtain ⟨i, -, rfl⟩ := List.mem_map.mp hc
  simp [List.length_take]

theorem mapM_dataFrames (l : List Bytes) (h : ∀ c ∈ l, c.length ≤ 1457) :
    l.mapM (fun chunk => writePresend (writeInit SERVER_CONTENT_TYPE ++ chunk))
      = Except.ok (l.map
          (fun chunk => lengthPrefix (chunk.length + 3) ++ SERVER_CONTENT_TYPE :: chunk)) := by
  induction l with
  | nil => rfl
  | cons c t ih =>
    have hc := h c (List.mem_cons_self c t)
    have ht := ih (fun x hx => h x (List.mem_cons_of_mem c hx))
    have hpre : writePresend (writeInit SERVER_CONTENT_TYPE ++ c)
        = Except.ok (lengthPrefix (c.length + 3) ++ SERVER_CONTENT_TYPE :: c) := by
      have hlen : (writeInit SERVER_CONTENT_TYPE ++ c).length = c.length + 3 := by
        simp only [writeInit, List.length_append, List.length_cons, List.length_nil]
        omega
      rw [writePresend, if_neg (by rw [hlen]; simp only [SEND_MTU]; omega), hlen]
      congr 1
    rw [List.mapM_cons, hpre, ht]
    rfl

theorem groupIx_length_replicate (n : Nat) (e : RawEntry) :
    (groupIx (List.replicate n e) (preContentId e.md5sum)).length = n := by
  rw [groupIx, List.filter_eq_self.mpr]
  · simp [List.enum_length]
  · intro p hp
    have hpe : p.2 = e := by
      have hget := List.mk_mem_enum_iff_getElem?.mp (by simpa using hp)
      have hrep := List.getElem?_replicate (n := n) (a := e) (m := p.1)
      rw [hget] at hrep
      by_cases hlt : p.1 < n
      · simp only [hlt, if_true] at hrep
        exact Option.some_injective _ hrep
      · simp [hlt] at hrep
    rw [hpe]
    exact beq_self_eq_true _

/-- C5: when some base group holds more than 255 entries, the index rebuild
raises instead of returning a snapshot, and `Application.reload` leaves the
four live catalog views bound to the previous state. -/
theorem C5_collision_aborts (es : List RawEntry) (st : AppState)
    (h : ∃ e ∈ es, 255 < (groupIx es (preContentId e.md5sum)).length) :
    (∃ msg, indexReload es = .error msg)
    ∧ applicationReload st (indexReload es) = st := by
  have hany : (es.any fun e =>
      decide (255 < (groupIx es (preContentId e.md5sum)).length)) = true := by
    rw [List.any_eq_true]
    obtain ⟨e, he, hgt⟩ := h
    exact ⟨e, he, by simpa using hgt⟩
  have herr : indexReload es = Except.error
      "We have more than 255 hash collisions; content-ids would be identical for more than one package. Aborting." := by
    rw [indexReload, if_pos hany]
  exact ⟨⟨_, herr⟩, by rw [herr]; rfl⟩

/-- Witness for C5: 256 entries sharing one md5sum tail. -/
theorem C5_witness :
    (∃ e ∈ collisionIndex, 255 < (groupIx collisionIndex (preContentId e.md5sum)).length)
    ∧ (∃ msg, indexReload collisionIndex = .error msg)
    ∧ applicationReload emptyAppState (indexReload collisionIndex) = emptyAppState := by
  have h : ∃ e ∈ collisionIndex,
      255 < (groupIx collisionIndex (preContentId e.md5sum)).length := by
    refine ⟨sampleRaw, ?_, ?_⟩
    · rw [collisionIndex]
      exact List.mem_replicate.mpr ⟨by omega, rfl⟩
    · rw [collisionIndex, groupIx_length_replicate]
      omega
  obtain ⟨h1, h2⟩ := C5_collision_aborts collisionIndex emptyAppState h
  exact ⟨h, h1, h2⟩

/-- C1: every entry of a built catalog carries
`content_id = (i <<< 24) + base` where `base` is the little-endian integer
of the last three bytes of its 16-byte md5sum and `i` is its 0-based
position within its base group ordered by ascending upload date. -/
theorem C1_content_id_assignment (es : List RawEntry) (s : Snapshot) (cid : Nat)
    (e : IdEntry)
    (h16 : ∀ r ∈ es, r.md5sum.length = 16)
    (hok : indexReload es = .ok s)
    (hfind : s.byContentId cid = some e) :
    ∃ (g : List (Nat × RawEntry)) (i j : Nat),
      g.Perm (groupIx es (intFromBytesLE (e.md5sum.drop 13)))
      ∧ List.Sorted uploadLe g
      ∧ g[i]? = some (j, e.raw)
      ∧ e.content_id = (i <<< 24) + intFromBytesLE (e.md5sum.drop 13)
      ∧ cid = e.content_id := by
  rw [indexReload] at hok
  split at hok
  · exact absurd hok (by simp)
  · have hs : s = ⟨assignAll es⟩ := by
      cases hok
      rfl
    subst hs
    have hcid : e.content_id = cid := by
      have := List.find?_some hfind
      simpa using this
    have hmem : e ∈ assignAll es := List.mem_of_find?_eq_some hfind
    rw [assignAll, List.mem_map] at hmem
    obtain ⟨⟨j, r⟩, hpe, heq⟩ := hmem
    subst heq
    have hres : es[j]? = some r := List.mk_mem_enum_iff_getElem?.mp hpe
    have hrmem : r ∈ es := by
      have hj : j < es.length := (List.getElem?_eq_some.mp hres).1
      have : es[j] = r := by
        have := List.getElem?_eq_getElem hj
        rw [hres] at this
        exact (Option.some_injective _ this.symm)
      exact this ▸ List.getElem_mem hj
    have hbase : preContentId r.md5sum = intFromBytesLE (r.md5sum.drop 13) := by
      rw [preContentId, h16 r hrmem]
    have hmemg : (j, r) ∈ groupIx es (preContentId r.md5sum) := by
      rw [groupIx, List.mem_filter]
      exact ⟨hpe, beq_self_eq_true _⟩
    have hmemsg : (j, r) ∈ sortedGroup es (preContentId r.md5sum) := by
      rw [sortedGroup]
      exact (List.perm_insertionSort uploadLe _).mem_iff.mpr hmemg
    have hex : ∃ q ∈ sortedGroup es (preContentId r.md5sum), (q.1 == j) = true :=
      ⟨(j, r), hmemsg, beq_self_eq_true _⟩
    have hlt := List.findIdx_lt_length_of_exists hex
    refine ⟨sortedGroup es (preContentId r.md5sum),
      (sortedGroup es (preContentId r.md5sum)).findIdx (fun q => q.1 == j), j,
      ?_, ?_, ?_, ?_, ?_⟩
    · show (sortedGroup es (preContentId r.md5sum)).Perm
        (groupIx es (intFromBytesLE (r.md5sum.drop 13)))
      rw [← hbase, sortedGroup]
      exact List.perm_insertionSort uploadLe (groupIx es (preContentId r.md5sum))
    · rw [sortedGroup]
      exact List.sorted_insertionSort uploadLe _
    · obtain ⟨q, hq_eq⟩ : ∃ q, (sortedGroup es
          (preContentId r.md5sum))[(sortedGroup es
            (preContentId r.md5sum)).findIdx (fun x => x.1 == j)]? = some q := by
        rw [List.getElem?_eq_getElem hlt]
        exact ⟨_, rfl⟩
      have hpred := List.findIdx_of_getElem?_eq_some hq_eq
      have hfst : q.1 = j := by simpa using hpred
      have hqmem : q ∈ sortedGroup es (preContentId r.md5sum) := by
        obtain ⟨hlt2, heq2⟩ := List.getElem?_eq_some.mp hq_eq
        exact heq2 ▸ List.getElem_mem hlt2
      rw [sortedGroup] at hqmem
      have hqgroup : q ∈ groupIx es (preContentId r.md5sum) :=
        (List.perm_insertionSort uploadLe _).mem_iff.mp hqmem
      have hqenum : q ∈ es.enum := by
        rw [groupIx] at hqgroup
        exact List.mem_of_mem_filter hqgroup
      have hsnd : q.2 = r := by
        have hxq : (j, q.2) ∈ es.enum := by
          have hq12 : (q.1, q.2) ∈ es.enum := by simpa using hqenum
          rwa [hfst] at hq12
        have h1 := List.mk_mem_enum_iff_getElem?.mp hxq
        rw [hres] at h1
        exact (Option.some_injective _ h1).symm
      have hq_pair : q = (j, r) := Prod.ext hfst hsnd
      rw [hq_eq, hq_pair]
      rfl
    · show contentIdOfTagged es (j, r)
        = ((sortedGroup es (preContentId r.md5sum)).findIdx (fun q => q.1 == j) <<< 24)
          + intFromBytesLE (r.md5sum.drop 13)
      rw [← hbase]
      rfl
    · exact hcid.symm

theorem safeChar_ne_underscore {c : Char} (h : isSafeChar c = true) : c ≠ '_' := by
  intro hc
  subst hc
  exact absurd h (by decide)

theorem safeGo_chars : ∀ (s racc : List Char),
    (∀ c ∈ racc, isSafeChar c = true ∨ c = '_') →
    ∀ c ∈ safeGo racc s, isSafeChar c = true ∨ c = '_' := by
  intro s
  induction s with
  | nil =>
    intro racc h c hc
    exact h c hc
  | cons c cs ih =>
    intro racc h x hx
    by_cases hc : isSafeChar c = true
    · rw [safeGo, if_pos hc] at hx
      refine ih (c :: racc) ?_ x hx
      intro y hy
      rcases List.mem_cons.mp hy with rfl | hy
      · exact Or.inl hc
      · exact h y hy
    · rw [safeGo, if_neg hc] at hx
      refine ih (safePush racc) ?_ x hx
      intro y hy
      cases racc with
      | nil => exact h y hy
      | cons l ls =>
        rw [safePush] at hy
        by_cases hl : l = '_'
        · rw [if_pos hl] at hy
          exact h y hy
        · rw [if_neg hl] at hy
          rcases List.mem_cons.mp hy with rfl | hy
          · exact Or.inr rfl
          · exact h y hy

theorem safeGo_chain : ∀ (s racc : List Char),
    List.Chain' (fun a b => ¬(a = '_' ∧ b = '_')) racc →
    List.Chain' (fun a b => ¬(a = '_' ∧ b = '_')) (safeGo racc s) := by
  intro s
  induction s with
  | nil =>
    intro racc h
    exact h
  | cons c cs ih =>
    intro racc h
    by_cases hc : isSafeChar c = true
    · rw [safeGo, if_pos hc]
      refine ih (c :: racc) (List.chain'_cons'.mpr ⟨?_, h⟩)
      intro y _
      intro hcontra
      exact safeChar_ne_underscore hc hcontra.1
    · rw [safeGo, if_neg hc]
      refine ih (safePush racc) ?_
      cases racc with
      | nil => exact h
      | cons l ls =>
        rw [safePush]
        by_cases hl : l = '_'
        · rw [if_pos hl]
          exact h
        · rw [if_neg hl]
          refine List.chain'_cons'.mpr ⟨?_, h⟩
          intro y hy
          simp only [List.head?_cons, Option.mem_def, Option.some.injEq] at hy
          intro hcontra
          exact hl (hy ▸ hcontra.2)

theorem head?_dropWhile_eq_some {α : Type} {p : α → Bool} {l : List α} {c : α}
    (h : (l.dropWhile p).head? = some c) : p c = false := by
  have hd := List.head?_dropWhile_not p l
  rw [h] at hd
  exact hd

theorem pyStripEnds_subset (l : List Char) : pyStripEnds l ⊆ l := by
  intro c hc
  rw [pyStripEnds, List.mem_reverse] at hc
  have h1 : c ∈ (l.dropWhile isStripChar).reverse := List.dropWhile_subset _ hc
  rw [List.mem_reverse] at h1
  exact List.dropWhile_subset _ h1

theorem pyStripEnds_chain {R : Char → Char → Prop} (hsymm : ∀ a b, R a b → R b a)
    (l : List Char) (h : List.Chain' R l) : List.Chain' R (pyStripEnds l) := by
  rw [pyStripEnds]
  have h1 : List.Chain' R (l.dropWhile isStripChar) :=
    h.suffix (List.dropWhile_suffix _)
  have h2 : List.Chain' R (l.dropWhile isStripChar).reverse :=
    List.chain'_reverse.mpr (h1.imp (fun a b hab => hsymm a b hab))
  have h3 : List.Chain' R ((l.dropWhile isStripChar).reverse.dropWhile isStripChar) :=
    h2.suffix (List.dropWhile_suffix _)
  exact List.chain'_reverse.mpr (h3.imp (fun a b hab => hsymm a b hab))

theorem pyStripEnds_getLast {l : List Char} {c : Char}
    (h : (pyStripEnds l).getLast? = some c) : isStripChar c = false := by
  rw [pyStripEnds, List.getLast?_reverse] at h
  exact head?_dropWhile_eq_some h

theorem pyStripEnds_head {l : List Char} {c : Char}
    (h : (pyStripEnds l).head? = some c) : isStripChar c = false := by
  rw [pyStripEnds, List.head?_reverse] at h
  set v := (l.dropWhile isStripChar).reverse.dropWhile isStripChar with hv
  have hvnil : v ≠ [] := by
    intro hnil
    rw [hnil] at h
    exact Option.noConfusion h
  obtain ⟨t, ht⟩ := List.dropWhile_suffix (l := (l.dropWhile isStripChar).reverse)
    (p := isStripChar)
  rw [← hv] at ht
  have hl2 : (t ++ v).getLast? = v.getLast? := by
    rw [List.getLast?_append]
    cases hvl : v.getLast? with
    | none => exact absurd (List.getLast?_eq_none_iff.mp hvl) hvnil
    | some x => rfl
  rw [ht, List.getLast?_reverse] at hl2
  rw [← hl2] at h
  exact head?_dropWhile_eq_some h

theorem dropWhile_eq_self_of_head {α : Type} {p : α → Bool} {l : List α}
    (h : ∀ c, l.head? = some c → p c = false) : l.dropWhile p = l := by
  cases l with
  | nil => rfl
  | cons a t =>
    rw [List.dropWhile_cons, h a rfl]
    simp

theorem pyStripEnds_of_clean {t : List Char}
    (hhead : ∀ c, t.head? = some c → isStripChar c = false)
    (hlast : ∀ c, t.getLast? = some c → isStripChar c = false) :
    pyStripEnds t = t := by
  rw [pyStripEnds, dropWhile_eq_self_of_head hhead]
  have h2 : t.reverse.dropWhile isStripChar = t.reverse := by
    refine dropWhile_eq_self_of_head ?_
    intro c hc
    rw [List.head?_reverse] at hc
    exact hlast c hc
  rw [h2, List.reverse_reverse]

theorem safeGo_of_clean : ∀ (t racc : List Char),
    (∀ c ∈ t, isSafeChar c = true ∨ c = '_') →
    List.Chain' (fun a b => ¬(a = '_' ∧ b = '_')) t →
    (t.head? = some '_' → ∃ l ls, racc = l :: ls ∧ l ≠ '_') →
    safeGo racc t = t.reverse ++ racc := by
  intro t
  induction t with
  | nil =>
    intro racc _ _ _
    simp [safeGo]
  | cons c cs ih =>
    intro racc hchars hchain hbound
    rcases hchars c (List.mem_cons_self c cs) with hc | hc
    · rw [safeGo, if_pos hc]
      rw [ih (c :: racc) (fun x hx => hchars x (List.mem_cons_of_mem c hx)) hchain.tail
        (fun _ => ⟨c, racc, rfl, safeChar_ne_underscore hc⟩)]
      simp
    · subst hc
      obtain ⟨l, ls, rfl, hl⟩ := hbound rfl
      rw [safeGo, if_neg (by decide)]
      rw [show safePush (l :: ls) = '_' :: l :: ls from by rw [safePush, if_neg hl]]
      have hcs_head : cs.head? = some '_' → False := by
        intro habs
        have := (List.chain'_cons'.mp hchain).1 '_' habs
        exact this ⟨rfl, rfl⟩
      rw [ih ('_' :: l :: ls) (fun x hx => hchars x (List.mem_cons_of_mem _ hx)) hchain.tail
        (fun habs => absurd habs hcs_head)]
      simp

/-- C9: the filename sanitizer is idempotent; its output is drawn from
`[A-Za-z0-9._]`, never holds two consecutive underscores, and never starts
or ends with `.` or `_`. -/
theorem C9_safe_name (s : List Char) :
    safeName (safeName s) = safeName s
    ∧ (∀ c ∈ safeName s, isSafeChar c = true ∨ c = '_')
    ∧ List.Chain' (fun a b => ¬(a = '_' ∧ b = '_')) (safeName s)
    ∧ (∀ c, (safeName s).head? = some c → c ≠ '.' ∧ c ≠ '_')
    ∧ (∀ c, (safeName s).getLast? = some c → c ≠ '.' ∧ c ≠ '_') := by
  have hchars : ∀ c ∈ safeName s, isSafeChar c = true ∨ c = '_' := by
    intro c hc
    rw [safeName] at hc
    have h1 := pyStripEnds_subset _ hc
    rw [List.mem_reverse] at h1
    exact safeGo_chars s [] (by intro c hc0; exact absurd hc0 (List.not_mem_nil c)) c h1
  have hchain : List.Chain' (fun a b => ¬(a = '_' ∧ b = '_')) (safeName s) := by
    rw [safeName]
    refine pyStripEnds_chain (fun a b hab h => hab ⟨h.2, h.1⟩) _ ?_
    refine List.chain'_reverse.mpr ?_
    refine (safeGo_chain s [] List.chain'_nil).imp ?_
    intro a b hab h
    exact hab ⟨h.2, h.1⟩
  have hstrip_ne : ∀ c : Char, isStripChar c = false → c ≠ '.' ∧ c ≠ '_' := by
    intro c hc
    constructor
    · intro h
      subst h
      exact absurd hc (by decide)
    · intro h
      subst h
      exact absurd hc (by decide)
  have hhead : ∀ c, (safeName s).head? = some c → c ≠ '.' ∧ c ≠ '_' := by
    intro c hc
    rw [safeName] at hc
    exact hstrip_ne c (pyStripEnds_head hc)
  have hlast : ∀ c, (safeName s).getLast? = some c → c ≠ '.' ∧ c ≠ '_' := by
    intro c hc
    rw [safeName] at hc
    exact hstrip_ne c (pyStripEnds_getLast hc)
  refine ⟨?_, hchars, hchain, hhead, hlast⟩
  have hgo : safeGo [] (safeName s) = (safeName s).reverse ++ [] := by
    refine safeGo_of_clean (safeName s) [] hchars hchain ?_
    intro habs
    exact absurd rfl (hhead '_' habs).2
  conv_lhs => rw [safeName]
  rw [hgo, List.append_nil, List.reverse_reverse]
  refine pyStripEnds_of_clean ?_ ?_
  · intro c hc
    have h := hhead c hc
    rw [isStripChar]
    simp [h.1, h.2]
  · intro c hc
    have h := hlast c hc
    rw [isStripChar]
    simp [h.1, h.2]

/-- Witness for C1 on a one-entry catalog whose md5sum ends in `01 00 00`. -/
theorem C1_witness :
    (∀ r ∈ singleIndex, r.md5sum.length = 16)
    ∧ indexReload singleIndex = .ok ⟨[sampleRaw.withId 1]⟩
    ∧ Snapshot.byContentId ⟨[sampleRaw.withId 1]⟩ 1 = some (sampleRaw.withId 1)
    ∧ ∃ (g : List (Nat × RawEntry)) (i j : Nat),
        g.Perm (groupIx singleIndex (intFromBytesLE ((sampleRaw.withId 1).md5sum.drop 13)))
        ∧ List.Sorted uploadLe g
        ∧ g[i]? = some (j, (sampleRaw.withId 1).raw)
        ∧ (sampleRaw.withId 1).content_id
            = (i <<< 24) + intFromBytesLE ((sampleRaw.withId 1).md5sum.drop 13)
        ∧ 1 = (sampleRaw.withId 1).content_id :=
  ⟨by decide, rfl, by decide,
    C1_content_id_assignment singleIndex ⟨[sampleRaw.withId 1]⟩ 1 (sampleRaw.withId 1)
      (by decide) rfl (by decide)⟩

/-- C6 counterexample: two version records of one package that resolve to
the same full md5sum (both YAML files name the same `md5sum-partial`)
produce two catalog entries with the same `(type, unique_id, md5sum)`
triple.  Both receive content ids, but the triple-keyed dict keeps only the
last-inserted entry, so the entry reached through `by_content_id` at id `0`
is not the entry the triple view returns. -/
theorem C6_counterexample :
    indexReload dupIndex = .ok ⟨[dupRawA.withId 0, dupRawB.withId 16777216]⟩
    ∧ Snapshot.byContentId ⟨[dupRawA.withId 0, dupRawB.withId 16777216]⟩ 0
        = some (dupRawA.withId 0)
    ∧ Snapshot.byUniqueIdAndMd5sum ⟨[dupRawA.withId 0, dupRawB.withId 16777216]⟩
        (dupRawA.withId 0).content_type (dupRawA.withId 0).unique_id
        (dupRawA.withId 0).md5sum
        = some (dupRawB.withId 16777216)
    ∧ dupRawA.withId 0 ≠ dupRawB.withId 16777216 :=
  ⟨rfl, by decide, by decide, by decide⟩

/-- C6 (amended): in a snapshot built from entries whose
`(type, unique_id, md5sum)` triples are pairwise distinct, every entry of
`by_content_id` is also the entry the triple-keyed view returns for its own
keys. -/
theorem C6_triple_reachability (es : List RawEntry) (s : Snapshot) (cid : Nat)
    (e : IdEntry)
    (hdist : (es.map (fun r => (r.content_type, r.unique_id, r.md5sum))).Nodup)
    (hok : indexReload es = .ok s)
    (hfind : s.byContentId cid = some e) :
    s.byUniqueIdAndMd5sum e.content_type e.unique_id e.md5sum = some e := by
  rw [indexReload] at hok
  split at hok
  · exact absurd hok (by simp)
  · have hs : s = ⟨assignAll es⟩ := by
      cases hok
      rfl
    subst hs
    have hmem : e ∈ assignAll es := List.mem_of_find?_eq_some hfind
    rw [Snapshot.byUniqueIdAndMd5sum]
    have hex : ∃ x, x ∈ (assignAll es).reverse ∧ (fun e' : IdEntry =>
        e'.content_type == e.content_type && e'.unique_id == e.unique_id
          && e'.md5sum == e.md5sum) x = true :=
      ⟨e, List.mem_reverse.mpr hmem, by simp⟩
    obtain ⟨e'', hfind2⟩ := Option.isSome_iff_exists.mp (List.find?_isSome.mpr hex)
    rw [hfind2]
    have htr := List.find?_some hfind2
    have htriple : e''.content_type = e.content_type ∧ e''.unique_id = e.unique_id
        ∧ e''.md5sum = e.md5sum := by
      simp at htr
      exact ⟨htr.1.1, htr.1.2, htr.2⟩
    have hmem'' : e'' ∈ assignAll es :=
      List.mem_reverse.mp (List.mem_of_find?_eq_some hfind2)
    rw [assignAll, List.mem_map] at hmem hmem''
    obtain ⟨⟨j, r⟩, hpe, heq⟩ := hmem
    obtain ⟨⟨j'', r''⟩, hpe'', heq''⟩ := hmem''
    have hres : es[j]? = some r := List.mk_mem_enum_iff_getElem?.mp hpe
    have hres'' : es[j'']? = some r'' := List.mk_mem_enum_iff_getElem?.mp hpe''
    have hjlt : j < es.length := (List.getElem?_eq_some.mp hres).1
    have hjlt'' : j'' < es.length := (List.getElem?_eq_some.mp hres'').1
    have hgetj : es[j] = r := by
      have h0 := List.getElem?_eq_getElem hjlt
      rw [hres] at h0
      exact Option.some_injective _ h0.symm
    have hgetj'' : es[j''] = r'' := by
      have h0 := List.getElem?_eq_getElem hjlt''
      rw [hres''] at h0
      exact Option.some_injective _ h0.symm
    have hfr : (r''.content_type, r''.unique_id, r''.md5sum)
        = (r.content_type, r.unique_id, r.md5sum) := by
      have h1 : e''.content_type = r''.content_type := by rw [← heq'']; rfl
      have h2 : e''.unique_id = r''.unique_id := by rw [← heq'']; rfl
      have h3 : e''.md5sum = r''.md5sum := by rw [← heq'']; rfl
      have h4 : e.content_type = r.content_type := by rw [← heq]; rfl
      have h5 : e.unique_id = r.unique_id := by rw [← heq]; rfl
      have h6 : e.md5sum = r.md5sum := by rw [← heq]; rfl
      rw [← h1, ← h2, ← h3, ← h4, ← h5, ← h6]
      exact Prod.ext htriple.1 (Prod.ext htriple.2.1 htriple.2.2)
    have hjj : j'' = j := by
      have hmapj : (es.map (fun x => (x.content_type, x.unique_id, x.md5sum)))[j]?
          = some (r.content_type, r.unique_id, r.md5sum) := by
        rw [List.getElem?_map, hres]
        rfl
      have hmapj'' : (es.map (fun x => (x.content_type, x.unique_id, x.md5sum)))[j'']?
          = some (r''.content_type, r''.unique_id, r''.md5sum) := by
        rw [List.getElem?_map, hres'']
        rfl
      refine List.getElem?_inj ?_ hdist ?_
      · rw [List.length_map]
        exact hjlt''
      · rw [hmapj, hmapj'', hfr]
    subst hjj
    have hrr : r'' = r := by
      rw [← hgetj, ← hgetj'']
    rw [← heq, ← heq'', hrr]

/-- Witness for the amended C6 on a one-entry catalog. -/
theorem C6_witness :
    (List.map (fun r => (r.content_type, r.unique_id, r.md5sum)) singleIndex).Nodup
    ∧ indexReload singleIndex = .ok ⟨[sampleRaw.withId 1]⟩
    ∧ Snapshot.byContentId ⟨[sampleRaw.withId 1]⟩ 1 = some (sampleRaw.withId 1)
    ∧ Snapshot.byUniqueIdAndMd5sum ⟨[sampleRaw.withId 1]⟩
        (sampleRaw.withId 1).content_type (sampleRaw.withId 1).unique_id
        (sampleRaw.withId 1).md5sum = some (sampleRaw.withId 1) :=
  ⟨by decide, rfl, by decide,
    C6_triple_reachability singleIndex ⟨[sampleRaw.withId 1]⟩ 1 (sampleRaw.withId 1)
      (by decide) rfl (by decide)⟩

/-- C3: a CLIENT_CONTENT hit on an entry whose stream yields exactly the
bytes of `file` replies with one SERVER_CONTENT header frame carrying type,
content id, filesize and filename, then one data frame per 1457-byte
(MTU minus 3) read, whose payloads are the consecutive chunks of the file,
then one empty SERVER_CONTENT frame; in particular a 4096-byte file
produces data frames carrying 1457, 1457 and 1182 bytes. -/
theorem C3_server_content (content_type content_id filesize : Nat)
    (filename file : Bytes) (hname : filename.length + 13 ≤ 1460) :
    sendServerContent content_type content_id filesize filename file =
      .ok ((lengthPrefix (filename.length + 13) ++
              [SERVER_CONTENT_TYPE, content_type % 256] ++ uint32Bytes content_id ++
              uint32Bytes filesize ++ filename ++ [0])
        :: (chunkStream file).map
             (fun c => lengthPrefix (c.length + 3) ++ SERVER_CONTENT_TYPE :: c)
        ++ [[3, 0, SERVER_CONTENT_TYPE]])
    ∧ chunkStream file =
        (List.range ((file.length + 1456) / 1457)).map
          (fun i => (file.drop (1457 * i)).take 1457)
    ∧ (chunkStream (List.replicate 4096 0)).map List.length = [1457, 1457, 1182] := by
  refine ⟨?_, chunkStream_spec file, ?_⟩
  · have hheader : writePresend (writeString (writeUint32 (writeUint32 (writeUint8
        (writeInit SERVER_CONTENT_TYPE) content_type) content_id) filesize) filename)
        = Except.ok (lengthPrefix (filename.length + 13) ++
            [SERVER_CONTENT_TYPE, content_type % 256] ++ uint32Bytes content_id ++
            uint32Bytes filesize ++ filename ++ [0]) := by
      have hlen : (writeString (writeUint32 (writeUint32 (writeUint8
          (writeInit SERVER_CONTENT_TYPE) content_type) content_id) filesize)
            filename).length = filename.length + 13 := by
        simp only [writeString, writeUint32, writeUint8, writeInit, uint32Bytes,
          List.length_append, List.length_cons, List.length_nil]
        omega
      rw [writePresend, if_neg (by rw [hlen]; simp only [SEND_MTU]; omega), hlen]
      congr 1
    have hterm : writePresend (writeInit SERVER_CONTENT_TYPE)
        = Except.ok [3, 0, SERVER_CONTENT_TYPE] := by
      rw [writePresend]
      norm_num [writeInit, SEND_MTU, lengthPrefix, SERVER_CONTENT_TYPE]
    rw [sendServerContent]
    simp only [hheader, hterm, mapM_dataFrames (chunkStream file) (chunkStream_length_le file)]
  · rw [chunkStream_spec]
    have h3 : ((List.replicate 4096 (0 : Nat)).length + 1456) / 1457 = 3 := by
      norm_num
    rw [h3, show List.range 3 = [0, 1, 2] from rfl]
    simp only [List.map_cons, List.map_nil, List.length_take, List.length_drop,
      List.length_replicate]
    norm_num

/-- Witness for C3 on a one-byte filename and a three-byte file. -/
theorem C3_witness :
    ([97] : Bytes).length + 13 ≤ 1460 ∧
      sendServerContent 2 7 3 [97] [1, 2, 3] =
        .ok ((lengthPrefix (([97] : Bytes).length + 13) ++
                [SERVER_CONTENT_TYPE, 2 % 256] ++ uint32Bytes 7 ++
                uint32Bytes 3 ++ [97] ++ [0])
          :: (chunkStream [1, 2, 3]).map
               (fun c => lengthPrefix (c.length + 3) ++ SERVER_CONTENT_TYPE :: c)
          ++ [[3, 0, SERVER_CONTENT_TYPE]]) :=
  ⟨by decide, (C3_server_content 2 7 3 [97] [1, 2, 3] (by decide)).1⟩

/-- Witness for C4 at the scenario type and a concrete unique id. -/
theorem C4_witness :
    ([1, 2, 3, 4] : Bytes).length = 4 ∧ (∀ b ∈ ([1, 2, 3, 4] : Bytes), b < 256) ∧
      uniqueIdFromWireValue ContentType.SCENARIO
        (intFromBytesLE (intToBytesLE 4
          (uniqueIdWireValue ContentType.SCENARIO [1, 2, 3, 4]))) = [1, 2, 3, 4] :=
  ⟨by decide, by decide,
    (C4_unique_id_roundtrip ContentType.SCENARIO [1, 2, 3, 4] (by decide) (by decide)).1⟩

end Bananas
